import Mathlib

/-
Verification of the nix-ubw supervisor/limiter against its specification.

Shallow embedding of the Rust sources:
  - src/resources/resource_profile.rs : ResourceProfile (u32 fields; Add wraps
    at 2^32, Sub is saturating_sub, exactly as the Rust code)
  - src/resources/rules.rs            : profile_for (the rules table)
  - src/nixutil.rs                    : unwrap_nix_name, resolve_basename,
    read_cmdline (the byte-level argv construction)
  - src/limiter.rs                    : Limiter with on_exec / on_exit /
    fits / admit / try_resume_paused; the HashMap of active entries is
    embedded as an association list, the VecDeque as a list
  - src/tracer.rs                     : the PTRACE_EVENT_EXEC arm's decision
    of whether the supervisor itself issues ptrace::cont

Strings are embedded as List Char; machine integers (u32) as Nat with the
wrap / saturation made explicit.  ptrace::cont is a fallible external call
and is embedded as an oracle (contOk : Nat -> Bool) saying for which pid the
call succeeds.
-/

set_option autoImplicit false

/-- Shorthand turning a string literal into the List Char representation used
throughout the embedding. -/
def strL (s : String) : List Char := s.data

/-! ## ResourceProfile (src/resources/resource_profile.rs) -/

/-- Resource consumption profile; in the Rust source both fields are u32. -/
structure ResourceProfile where
  cpus : Nat
  mem_gb : Nat
deriving DecidableEq, Repr

/-- Embeds impl Add for ResourceProfile.  Rust u32 addition wraps at 2^32
(release-mode semantics); the wrap is written out explicitly. -/
def ResourceProfile.add (a b : ResourceProfile) : ResourceProfile :=
  ⟨(a.cpus + b.cpus) % 4294967296, (a.mem_gb + b.mem_gb) % 4294967296⟩

/-- Embeds impl Sub for ResourceProfile.  The Rust code uses
u32::saturating_sub on both components; Nat subtraction has exactly that
saturating behaviour. -/
def ResourceProfile.sub (a b : ResourceProfile) : ResourceProfile :=
  ⟨a.cpus - b.cpus, a.mem_gb - b.mem_gb⟩

/-- Embeds ResourceProfile::has_free_resources. -/
def ResourceProfile.hasFreeResources (self available : ResourceProfile) : Bool :=
  decide (self.cpus ≤ available.cpus) && decide (self.mem_gb ≤ available.mem_gb)

/-! ## Classifier rules (src/resources/rules.rs) -/

/-- The C / C++ compiler names of the first match arm. -/
def ccNames : List (List Char) :=
  [strL "cc", strL "gcc", strL "g++", strL "c++", strL "clang", strL "clang++"]

/-- The LLVM backend / linker names. -/
def lldNames : List (List Char) := [strL "llc", strL "lld", strL "ld.lld"]

/-- The GNU linker / gold names. -/
def ldNames : List (List Char) := [strL "ld", strL "gold"]

/-- The JVM-based compiler names. -/
def jvmNames : List (List Char) :=
  [strL "java", strL "javac", strL "scalac", strL "kotlinc"]

/-- The CUDA toolchain names. -/
def cudaNames : List (List Char) :=
  [strL "nvcc", strL "ptxas", strL "cicc", strL "cudafe++", strL "fatbinary"]

/-- The match expression of profile_for in src/resources/rules.rs, arm by arm. -/
def lookupRule (name : List Char) : Option ResourceProfile :=
  if name ∈ ccNames then some ⟨1, 1⟩
  else if name = strL "rustc" then some ⟨4, 4⟩
  else if name ∈ lldNames then some ⟨1, 2⟩
  else if name ∈ ldNames then some ⟨1, 1⟩
  else if name = strL "go" then some ⟨1, 1⟩
  else if name = strL "ghc" then some ⟨1, 4⟩
  else if name ∈ jvmNames then some ⟨1, 2⟩
  else if name ∈ cudaNames then some ⟨1, 4⟩
  else none

/-- Embeds profile_for of src/resources/rules.rs: args.first() is consulted,
a missing first element yields None. -/
def profile_for (args : List (List Char)) : Option ResourceProfile :=
  match args with
  | [] => none
  | name :: _ => lookupRule name

/-- All program names with a rule, in table order. -/
def allRuleNames : List (List Char) :=
  ccNames ++ [strL "rustc"] ++ lldNames ++ ldNames ++ [strL "go"] ++ [strL "ghc"]
    ++ jvmNames ++ cudaNames

/-- Modelled from the spec: src/limiter.rs calls a two-argument
profile_for(args, &self.total) re-exported by the resources module, whose
defining file (resources/mod.rs) is not present under src/.  Spec section 4.2
specifies the classifier as a function of argv alone (a fixed rules table),
so the wrapper delegates to the rules table of src/resources/rules.rs and
ignores the total budget. -/
def profile_for_total (args : List (List Char)) (_total : ResourceProfile) :
    Option ResourceProfile :=
  profile_for args

/-! ## Name resolver (src/nixutil.rs) -/

/-- Drops the given leading pattern from a list, if present (helper used to
embed str::strip_suffix below via reversal). -/
def dropPre? : List Char → List Char → Option (List Char)
  | [], s => some s
  | _ :: _, [] => none
  | p :: ps, c :: cs => if c = p then dropPre? ps cs else none

/-- Embeds str::strip_suffix: returns the list without the given suffix when
the suffix is present, none otherwise. -/
def dropSuf? (s suf : List Char) : Option (List Char) :=
  (dropPre? suf.reverse s.reverse).map List.reverse

/-- The literal "-wrapped" suffix of the NixOS wrapper convention. -/
def wrappedSuf : List Char := strL "-wrapped"

/-- The loop body of unwrap_nix_name, with explicit structural fuel: each
iteration strips one trailing "-wrapped" (strip_suffix first) and then one
leading dot (strip_prefix), stopping as soon as either side fails.  Fuel
equal to the length of the name is always sufficient since every iteration
removes nine characters. -/
def unwrapAux : Nat → List Char → List Char
  | 0, name => name
  | Nat.succ fuel, name =>
    match dropSuf? name wrappedSuf with
    | some ('.' :: rest) => unwrapAux fuel rest
    | some _ => name
    | none => name

/-- Embeds unwrap_nix_name of src/nixutil.rs. -/
def unwrap_nix_name (name : List Char) : List Char :=
  unwrapAux name.length name

/-- Embeds path.rsplit('/').next(): the segment after the last slash (the
whole input when no slash occurs). -/
def lastSegment (p : List Char) : List Char :=
  (p.reverse.takeWhile (fun c => c ≠ '/')).reverse

/-- Embeds resolve_basename of src/nixutil.rs. -/
def resolve_basename (p : List Char) : List Char :=
  unwrap_nix_name (lastSegment p)

/-! ## read_cmdline (src/nixutil.rs) -/

/-- The NUL byte separating argv entries in /proc/pid/cmdline. -/
def nulChar : Char := Char.ofNat 0

/-- Embeds slice::split on the NUL byte: n separators yield n+1 tokens, so a
trailing NUL produces a trailing empty token and empty input produces one
empty token. -/
def splitOnNul : List Char → List (List Char)
  | [] => [[]]
  | c :: rest =>
    if c = nulChar then [] :: splitOnNul rest
    else
      match splitOnNul rest with
      | [] => [[c]]
      | t :: ts => (c :: t) :: ts

/-- Embeds read_cmdline of src/nixutil.rs applied to the byte content of
/proc/pid/cmdline: split on NUL, filter out every empty token
(the .filter(|s| !s.is_empty()) of the iterator chain), then resolve the
first remaining argument via resolve_basename. -/
def read_cmdline_of (data : List Char) : List (List Char) :=
  match (splitOnNul data).filter (fun t => !t.isEmpty) with
  | [] => []
  | first :: rest => resolve_basename first :: rest

/-- The claim's reading of read_cmdline (spec section 6): split on NUL, drop
only the empty trailing token, resolve argv0.  Stated for comparison with
the source embedding read_cmdline_of. -/
def read_cmdline_claim (data : List Char) : List (List Char) :=
  let toks := splitOnNul data
  let toks := if toks.getLast? = some [] then toks.dropLast else toks
  match toks with
  | [] => []
  | first :: rest => resolve_basename first :: rest

/-- The amended claim's reading: split on NUL, drop every empty token,
resolve argv0. -/
def read_cmdline_amended (data : List Char) : List (List Char) :=
  match (splitOnNul data).filter (fun t => !t.isEmpty) with
  | [] => []
  | first :: rest => resolve_basename first :: rest

/-! ## Limiter (src/limiter.rs) -/

/-- Per-PID record of claimed resources. -/
structure ActiveEntry where
  name : List Char
  profile : ResourceProfile
deriving DecidableEq, Repr

/-- A paused process waiting for resources to free up. -/
structure PausedEntry where
  pid : Nat
  name : List Char
  profile : ResourceProfile
deriving DecidableEq, Repr

/-- Result of the on_exec call. -/
inductive OnExecResult where
  | NotThrottled
  | Admitted
  | Paused
deriving DecidableEq, Repr

/-- The limiter state.  The Rust HashMap of active entries is embedded as an
association list (pid, entry); the VecDeque of paused entries as a list with
its head at the front. -/
structure Limiter where
  total : ResourceProfile
  active : List (Nat × ActiveEntry)
  paused : List PausedEntry
  free : ResourceProfile
deriving DecidableEq, Repr

/-- HashMap::get on the association list. -/
def assocLookup (m : List (Nat × ActiveEntry)) (k : Nat) : Option ActiveEntry :=
  (m.find? (fun e => e.1 == k)).map (fun e => e.2)

/-- HashMap::remove on the association list (drops the entry for the key). -/
def assocErase (m : List (Nat × ActiveEntry)) (k : Nat) : List (Nat × ActiveEntry) :=
  m.filter (fun e => e.1 != k)

/-- HashMap::insert on the association list: replaces any entry already
present for the key. -/
def assocInsert (m : List (Nat × ActiveEntry)) (k : Nat) (v : ActiveEntry) :
    List (Nat × ActiveEntry) :=
  assocErase m k ++ [(k, v)]

/-- The keys of the association list are pairwise distinct (always true of
the Rust HashMap; stated as an explicit hypothesis where a theorem needs it). -/
def keysNodup (m : List (Nat × ActiveEntry)) : Prop :=
  (m.map (fun e => e.1)).Nodup

/-- Componentwise sum of the cpus of all active entries (exact, no wrap:
this is the measuring function of the conservation claims). -/
def sumCpus (m : List (Nat × ActiveEntry)) : Nat :=
  (m.map (fun e => e.2.profile.cpus)).sum

/-- Componentwise sum of the mem_gb of all active entries. -/
def sumMem (m : List (Nat × ActiveEntry)) : Nat :=
  (m.map (fun e => e.2.profile.mem_gb)).sum

/-- Embeds Limiter::new. -/
def Limiter.new (total : ResourceProfile) : Limiter :=
  ⟨total, [], [], total⟩

/-- Embeds Limiter::fits: profile fits the free budget, or (failsafe) nothing
else is active. -/
def Limiter.fits (l : Limiter) (profile : ResourceProfile) : Bool :=
  if profile.hasFreeResources l.free then true
  else if l.active.isEmpty then true
  else false

/-- Embeds Limiter::admit (named grant here): subtract the profile from free
(u32 saturating subtraction) and insert the entry into the active map. -/
def Limiter.grant (l : Limiter) (pid : Nat) (name : List Char)
    (profile : ResourceProfile) : Limiter :=
  { l with
    free := ResourceProfile.sub l.free profile
    active := assocInsert l.active pid ⟨name, profile⟩ }

/-- Embeds the rollback in Limiter::try_resume_paused executed when
ptrace::cont fails: remove the entry from active and add its profile back
to free. -/
def Limiter.rollback (l : Limiter) (pid : Nat) : Limiter :=
  match assocLookup l.active pid with
  | some entry =>
    { l with
      active := assocErase l.active pid
      free := ResourceProfile.add l.free entry.profile }
  | none => l

/-- The while-loop of Limiter::try_resume_paused, structurally recursive on
the queue: while the head fits, pop it, grant it, issue ptrace::cont (the
contOk oracle says whether the call succeeds) and roll back on failure; stop
at the first head that does not fit. -/
def drainAux (contOk : Nat → Bool) : List PausedEntry → Limiter → Limiter
  | [], l => { l with paused := [] }
  | front :: rest, l =>
    if Limiter.fits l front.profile then
      let l1 := Limiter.grant l front.pid front.name front.profile
      let l2 := if contOk front.pid then l1 else Limiter.rollback l1 front.pid
      drainAux contOk rest l2
    else { l with paused := front :: rest }

/-- Embeds Limiter::try_resume_paused. -/
def Limiter.tryResumePaused (contOk : Nat → Bool) (l : Limiter) : Limiter :=
  drainAux contOk l.paused l

/-- Embeds Limiter::on_exec: classify via the (total-taking) profile_for; an
unthrottled process changes nothing; a throttled one is admitted when it
fits and appended to the tail of the paused queue otherwise. -/
def Limiter.onExec (l : Limiter) (pid : Nat) (args : List (List Char)) :
    Limiter × OnExecResult :=
  match profile_for_total args l.total with
  | some profile =>
    let name := (args.head?).getD (strL "<unavailable>")
    if Limiter.fits l profile then
      (Limiter.grant l pid name profile, OnExecResult.Admitted)
    else
      ({ l with paused := l.paused ++ [⟨pid, name, profile⟩] }, OnExecResult.Paused)
  | none => (l, OnExecResult.NotThrottled)

/-- Embeds Limiter::on_exit: release the profile of an active pid and drain
the queue; afterwards scrub the pid from the paused queue as well. -/
def Limiter.onExit (contOk : Nat → Bool) (l : Limiter) (pid : Nat) : Limiter :=
  let l1 :=
    match assocLookup l.active pid with
    | some entry =>
      Limiter.tryResumePaused contOk
        { l with
          active := assocErase l.active pid
          free := ResourceProfile.add l.free entry.profile }
    | none => l
  { l1 with paused := l1.paused.filter (fun e => e.pid != pid) }

/-! ## Supervisor exec arm (src/tracer.rs, PTRACE_EVENT_EXEC) -/

/-- Whether the PTRACE_EVENT_EXEC arm of Tracer::handle_ptrace_event itself
issues ptrace::cont on the exec-stopped tracee.  Parameters: whether
read_cmdline succeeded, the classifier verdict Limiter::is_rate_limited
(that method and the bool-returning Limiter::on_exec this tracer variant
calls are not present under src/, so their verdicts are taken as inputs),
and the limiter's on_exec verdict.  The source continues the tracee in the
not-rate-limited branch and in the allowed branch, and does not in the
paused branch. -/
def tracerExecContinues (argsKnown rateLimited allowed : Bool) : Bool :=
  if argsKnown && rateLimited then allowed else true

/-! ## Concrete states used by the closed theorems -/

/-- A limiter mid-scenario: total (4,8), one active ghc holding (1,4),
free (3,4), and pid 101 (rustc, profile (4,4)) waiting at the head of the
queue; the head does not fit the free budget. -/
def limC4 : Limiter :=
  ⟨⟨4, 8⟩, [(100, ⟨strL "ghc", ⟨1, 4⟩⟩)], [⟨101, strL "rustc", ⟨4, 4⟩⟩], ⟨3, 4⟩⟩

/-- A limiter with an exhausted budget: total (1,1), one active cc holding
(1,1), free (0,0), empty queue. -/
def limTight : Limiter :=
  ⟨⟨1, 1⟩, [(100, ⟨strL "cc", ⟨1, 1⟩⟩)], [], ⟨0, 0⟩⟩

/-- limTight with pid 101 (cc, (1,1)) queued: its head does not fit and the
active set is non-empty, so draining stops immediately. -/
def limStuck : Limiter :=
  ⟨⟨1, 1⟩, [(100, ⟨strL "cc", ⟨1, 1⟩⟩)], [⟨101, strL "cc", ⟨1, 1⟩⟩], ⟨0, 0⟩⟩

/-- The state exercising the rollback: total (2,2), pid 100 active holding
(1,1) with free (1,1) (conservation holds), and pid 101 queued with the
over-budget profile (4,4). -/
def limC6 : Limiter :=
  ⟨⟨2, 2⟩, [(100, ⟨strL "cc", ⟨1, 1⟩⟩)], [⟨101, strL "rustc", ⟨4, 4⟩⟩], ⟨1, 1⟩⟩

/-- A half-full limiter for the duplicate-exec witness: total (4,4), pid 100
active holding (1,1), free (3,3). -/
def limC10 : Limiter :=
  ⟨⟨4, 4⟩, [(100, ⟨strL "cc", ⟨1, 1⟩⟩)], [], ⟨3, 3⟩⟩

/-! ## Helper lemmas -/

theorem dropPre?_eq_some (pre : List Char) :
    ∀ s t : List Char, dropPre? pre s = some t ↔ s = pre ++ t := by
  induction pre with
  | nil =>
    intro s t
    simp [dropPre?, eq_comm]
  | cons p ps ih =>
    intro s t
    cases s with
    | nil => simp [dropPre?]
    | cons c cs =>
      simp only [dropPre?, List.cons_append]
      by_cases h : c = p
      · subst h
        rw [if_pos rfl, ih]
        constructor
        · intro he; rw [he]
        · intro he; exact (List.cons.injEq _ _ _ _ ▸ he).2
      · rw [if_neg h]
        constructor
        · intro he; exact absurd he (by simp)
        · intro he
          exact absurd (List.cons.injEq _ _ _ _ ▸ he).1 h

theorem dropSuf?_eq_some (s suf t : List Char) :
    dropSuf? s suf = some t ↔ s = t ++ suf := by
  simp only [dropSuf?, Option.map_eq_some']
  constructor
  · rintro ⟨u, hu, hrev⟩
    rw [dropPre?_eq_some] at hu
    have : s = (suf.reverse ++ u).reverse := by rw [← hu, List.reverse_reverse]
    rw [this, List.reverse_append, List.reverse_reverse, hrev]
  · intro hs
    refine ⟨t.reverse, ?_, List.reverse_reverse t⟩
    rw [dropPre?_eq_some, hs, List.reverse_append]

theorem dropSuf?_append (t suf : List Char) : dropSuf? (t ++ suf) suf = some t := by
  rw [dropSuf?_eq_some]

theorem dropSuf?_length {s suf t : List Char} (h : dropSuf? s suf = some t) :
    s.length = t.length + suf.length := by
  rw [dropSuf?_eq_some] at h
  rw [h, List.length_append]

theorem unwrapAux_congr :
    ∀ (f g : Nat) (name : List Char), name.length ≤ f → name.length ≤ g →
      unwrapAux f name = unwrapAux g name := by
  intro f
  induction f with
  | zero =>
    intro g name hf _
    have : name = [] := List.length_eq_zero.mp (Nat.le_zero.mp hf)
    subst this
    cases g with
    | zero => rfl
    | succ g' =>
      show unwrapAux 0 [] = unwrapAux (g' + 1) []
      have hnone : dropSuf? [] wrappedSuf = none := by decide
      simp [unwrapAux, hnone]
  | succ f' ih =>
    intro g name hf hg
    cases g with
    | zero =>
      have : name = [] := List.length_eq_zero.mp (Nat.le_zero.mp hg)
      subst this
      have hnone : dropSuf? [] wrappedSuf = none := by decide
      simp [unwrapAux, hnone]
    | succ g' =>
      show unwrapAux (f' + 1) name = unwrapAux (g' + 1) name
      simp only [unwrapAux]
      split
      · next rest hdrop =>
        have hlen := dropSuf?_length hdrop
        simp only [List.length_cons] at hlen
        have hsuf : wrappedSuf.length = 8 := by decide
        rw [hsuf] at hlen
        have h1 : rest.length ≤ f' := by omega
        have h2 : rest.length ≤ g' := by omega
        exact ih g' rest h1 h2
      · rfl
      · rfl

theorem unwrapAux_adequate (f : Nat) (name : List Char) (h : name.length ≤ f) :
    unwrapAux f name = unwrap_nix_name name :=
  unwrapAux_congr f name.length name h (Nat.le_refl _)

theorem unwrap_strip_pair (rest : List Char) :
    unwrap_nix_name (('.' :: rest) ++ wrappedSuf) = unwrap_nix_name rest := by
  have hsuf : wrappedSuf.length = 8 := by decide
  have hlen : (('.' :: rest) ++ wrappedSuf).length = rest.length + 9 := by
    simp [List.length_append, List.length_cons, hsuf]
  unfold unwrap_nix_name
  rw [hlen]
  have hstep : unwrapAux (rest.length + 9) (('.' :: rest) ++ wrappedSuf)
      = unwrapAux (rest.length + 8) rest := by
    simp only [unwrapAux, dropSuf?_append]
  rw [hstep]
  exact unwrapAux_congr _ _ rest (by omega) (Nat.le_refl _)

theorem unwrap_no_suffix (name : List Char) (h : dropSuf? name wrappedSuf = none) :
    unwrap_nix_name name = name := by
  unfold unwrap_nix_name
  cases hl : name.length with
  | zero => rfl
  | succ n => simp [unwrapAux, h]

theorem unwrap_no_dot (t : List Char) (h : t.head? ≠ some '.') :
    unwrap_nix_name (t ++ wrappedSuf) = t ++ wrappedSuf := by
  have hsuf : wrappedSuf.length = 8 := by decide
  cases t with
  | nil =>
    show unwrap_nix_name ([] ++ wrappedSuf) = [] ++ wrappedSuf
    unfold unwrap_nix_name
    have hlen : (([] : List Char) ++ wrappedSuf).length = 8 := by simp [hsuf]
    rw [hlen]
    have hd : dropSuf? (([] : List Char) ++ wrappedSuf) wrappedSuf = some [] :=
      dropSuf?_append [] wrappedSuf
    simp only [unwrapAux, hd]
  | cons c cs =>
    have hc : c ≠ '.' := by
      intro he
      exact h (by rw [he]; rfl)
    unfold unwrap_nix_name
    have hlen : ((c :: cs) ++ wrappedSuf).length = cs.length + 9 := by
      simp [List.length_append, List.length_cons, hsuf]
    rw [hlen]
    have hd : dropSuf? ((c :: cs) ++ wrappedSuf) wrappedSuf = some (c :: cs) :=
      dropSuf?_append (c :: cs) wrappedSuf
    simp only [unwrapAux, hd]
    split
    · next rest heq =>
      simp only [Option.some.injEq, List.cons.injEq] at heq
      exact absurd heq.1 hc
    · rfl
    · rfl

/-- C7: the name resolver strips matched pairs of leading dot and trailing -wrapped greedily, stopping
as soon as one side cannot match; resolve_basename takes the substring after
the last path separator and applies the unwrapper; all the verbatim examples
of the spec hold. -/
theorem c7_resolver_ok :
    (∀ rest : List Char,
      unwrap_nix_name (('.' :: rest) ++ wrappedSuf) = unwrap_nix_name rest) ∧
    (∀ name : List Char, dropSuf? name wrappedSuf = none →
      unwrap_nix_name name = name) ∧
    (∀ t : List Char, t.head? ≠ some '.' →
      unwrap_nix_name (t ++ wrappedSuf) = t ++ wrappedSuf) ∧
    (∀ p : List Char, resolve_basename p = unwrap_nix_name (lastSegment p)) ∧
    unwrap_nix_name (strL ".gcc-wrapped") = strL "gcc" ∧
    unwrap_nix_name (strL "..gcc-wrapped-wrapped") = strL "gcc" ∧
    unwrap_nix_name (strL "...gcc-wrapped-wrapped-wrapped") = strL "gcc" ∧
    unwrap_nix_name (strL ".hidden-file") = strL ".hidden-file" ∧
    unwrap_nix_name (strL "gcc-wrapped") = strL "gcc-wrapped" ∧
    unwrap_nix_name (strL ".gcc-wrapped-wrapped") = strL "gcc-wrapped" ∧
    resolve_basename (strL "/nix/store/abc-gcc/bin/.gcc-wrapped") = strL "gcc" := by
  refine ⟨unwrap_strip_pair, unwrap_no_suffix, unwrap_no_dot,
    fun _ => rfl, ?_, ?_, ?_, ?_, ?_, ?_, ?_⟩
  all_goals decide

/-- Witness for c7_resolver_ok: the hypothesis-carrying conjuncts applied at
concrete names. -/
theorem c7_resolver_ok_witness :
    unwrap_nix_name (strL ".hidden") = strL ".hidden" ∧
    unwrap_nix_name (strL "gcc" ++ wrappedSuf) = strL "gcc" ++ wrappedSuf :=
  ⟨c7_resolver_ok.2.1 (strL ".hidden") (by decide),
   c7_resolver_ok.2.2.1 (strL "gcc") (by decide)⟩

theorem lookupRule_not_listed (name : List Char) (h : name ∉ allRuleNames) :
    lookupRule name = none := by
  simp only [allRuleNames, List.mem_append, List.mem_singleton, not_or] at h
  obtain ⟨⟨⟨⟨⟨⟨⟨hcc, hrustc⟩, hlld⟩, hld⟩, hgo⟩, hghc⟩, hjvm⟩, hcuda⟩ := h
  unfold lookupRule
  rw [if_neg hcc, if_neg hrustc, if_neg hlld, if_neg hld, if_neg hgo,
    if_neg hghc, if_neg hjvm, if_neg hcuda]

/-- C8: profile_for implements exactly the rules table: each listed program
name yields its tabulated profile regardless of later argv entries, every
unlisted name yields none, and empty argv yields none. -/
theorem c8_classifier_table :
    profile_for [] = none ∧
    (∀ (name : List Char) (rest : List (List Char)),
      profile_for (name :: rest) = lookupRule name) ∧
    (∀ n, n ∈ ccNames → lookupRule n = some ⟨1, 1⟩) ∧
    lookupRule (strL "rustc") = some ⟨4, 4⟩ ∧
    (∀ n, n ∈ lldNames → lookupRule n = some ⟨1, 2⟩) ∧
    (∀ n, n ∈ ldNames → lookupRule n = some ⟨1, 1⟩) ∧
    lookupRule (strL "go") = some ⟨1, 1⟩ ∧
    lookupRule (strL "ghc") = some ⟨1, 4⟩ ∧
    (∀ n, n ∈ jvmNames → lookupRule n = some ⟨1, 2⟩) ∧
    (∀ n, n ∈ cudaNames → lookupRule n = some ⟨1, 4⟩) ∧
    (∀ name : List Char, name ∉ allRuleNames →
      ∀ rest, profile_for (name :: rest) = none) := by
  refine ⟨rfl, fun _ _ => rfl, ?_, by decide, ?_, ?_, by decide, by decide, ?_, ?_,
    fun name h _ => lookupRule_not_listed name h⟩
  all_goals intro n hn
  all_goals fin_cases hn <;> decide

/-- Witness for c8_classifier_table: the hypothesis-carrying conjuncts applied
at concrete names. -/
theorem c8_classifier_table_witness :
    lookupRule (strL "clang++") = some ⟨1, 1⟩ ∧
    profile_for (strL "bash" :: [strL "-c"]) = none :=
  ⟨c8_classifier_table.2.2.1 (strL "clang++") (by decide),
   c8_classifier_table.2.2.2.2.2.2.2.2.2.2 (strL "bash") (by decide) [strL "-c"]⟩

theorem filter_eq_dropTrailing :
    ∀ toks : List (List Char),
      (∀ t ∈ toks.dropLast, t.isEmpty = false) →
      toks.filter (fun t => !t.isEmpty)
        = (if toks.getLast? = some [] then toks.dropLast else toks) := by
  intro toks
  induction toks with
  | nil => intro _; simp
  | cons x rest ih =>
    intro h
    cases rest with
    | nil =>
      cases x with
      | nil => simp [List.filter]
      | cons c cs => simp [List.filter]
    | cons y t =>
      have hx : x.isEmpty = false := h x (by simp)
      have hrest : ∀ u ∈ (y :: t).dropLast, u.isEmpty = false := by
        intro u hu
        exact h u (by simp [List.dropLast_cons₂, hu])
      have hfilter : (x :: y :: t).filter (fun t => !t.isEmpty)
          = x :: (y :: t).filter (fun t => !t.isEmpty) := by
        simp [List.filter, hx]
      rw [hfilter, ih hrest]
      have hlast : (x :: y :: t).getLast? = (y :: t).getLast? := by
        simp [List.getLast?_cons_cons]
      rw [hlast]
      by_cases hc : (y :: t).getLast? = some []
      · rw [if_pos hc, if_pos hc, List.dropLast_cons₂]
      · rw [if_neg hc, if_neg hc]

/-- C9 counterexample: for the cmdline bytes "a NUL NUL b NUL" the code drops
the interior empty token as well, returning [a, b], while the claim (drop
only the empty trailing token) demands [a, [], b]. -/
theorem c9_cx :
    read_cmdline_of (strL "a" ++ [nulChar] ++ [nulChar] ++ strL "b" ++ [nulChar])
      = [strL "a", strL "b"] ∧
    read_cmdline_claim (strL "a" ++ [nulChar] ++ [nulChar] ++ strL "b" ++ [nulChar])
      = [strL "a", [], strL "b"] ∧
    read_cmdline_of (strL "a" ++ [nulChar] ++ [nulChar] ++ strL "b" ++ [nulChar])
      ≠ read_cmdline_claim (strL "a" ++ [nulChar] ++ [nulChar] ++ strL "b" ++ [nulChar]) := by
  refine ⟨by decide, by decide, by decide⟩

/-- C9 amended: read_cmdline returns the NUL-split tokens with every empty
token dropped (not only the trailing one) and argv0 resolved; it agrees with
the claim's drop-only-trailing reading exactly when no token before the last
is empty. -/
theorem c9_amended_ok :
    (∀ data : List Char, read_cmdline_of data = read_cmdline_amended data) ∧
    (∀ data : List Char,
      (∀ t ∈ (splitOnNul data).dropLast, t.isEmpty = false) →
      read_cmdline_of data = read_cmdline_claim data) := by
  refine ⟨fun _ => rfl, fun data h => ?_⟩
  unfold read_cmdline_of read_cmdline_claim
  rw [filter_eq_dropTrailing (splitOnNul data) h]

/-- Witness for c9_amended_ok: agreement at the cmdline bytes "a NUL". -/
theorem c9_amended_ok_witness :
    read_cmdline_of (strL "a" ++ [nulChar]) = read_cmdline_claim (strL "a" ++ [nulChar]) :=
  c9_amended_ok.2 (strL "a" ++ [nulChar]) (by decide)

theorem fits_paused_irrelevant (l : Limiter) (q : List PausedEntry)
    (p : ResourceProfile) : Limiter.fits { l with paused := q } p = Limiter.fits l p := rfl

theorem drainAux_spec (contOk : Nat → Bool) :
    ∀ (queue : List PausedEntry) (l : Limiter),
      (∃ k, (drainAux contOk queue l).paused = queue.drop k) ∧
      (∀ e rest, (drainAux contOk queue l).paused = e :: rest →
        Limiter.fits (drainAux contOk queue l) e.profile = false) := by
  intro queue
  induction queue with
  | nil =>
    intro l
    refine ⟨⟨0, rfl⟩, ?_⟩
    intro e rest h
    simp [drainAux] at h
  | cons front rest ih =>
    intro l
    simp only [drainAux]
    by_cases hf : Limiter.fits l front.profile = true
    · rw [if_pos hf]
      obtain ⟨⟨k, hk⟩, hstop⟩ := ih _
      exact ⟨⟨k + 1, by simpa using hk⟩, hstop⟩
    · rw [if_neg hf]
      refine ⟨⟨0, rfl⟩, ?_⟩
      intro e rest' h
      simp only [List.cons.injEq] at h
      have he : e = front := h.1.symm
      subst he
      rw [fits_paused_irrelevant]
      exact Bool.not_eq_true _ ▸ hf

/-- C4 counterexample: in limC4 the paused queue is non-empty and its head
(profile (4,4)) does not fit, yet on_exec of a newly arriving fitting cc
admits it immediately, ahead of the queued head, and enqueues nothing. -/
theorem c4_cx :
    (Limiter.onExec limC4 102 [strL "cc"]).2 = OnExecResult.Admitted ∧
    (Limiter.onExec limC4 102 [strL "cc"]).1.paused = [⟨101, strL "rustc", ⟨4, 4⟩⟩] ∧
    Limiter.fits limC4 ⟨4, 4⟩ = false := by
  refine ⟨by decide, by decide, by decide⟩

/-- C4 amended: a throttled arrival that does not fit is enqueued at the tail
(while a fitting one is admitted at once, even with a non-empty queue, as the
counterexample shows); try_resume_paused drains strictly front-to-back, its
remaining queue is always a suffix of the original, and it stops at the first
head that does not fit. -/
theorem c4_fifo_amended :
    (∀ (l : Limiter) (pid : Nat) (args : List (List Char)) (p : ResourceProfile),
      profile_for_total args l.total = some p →
      Limiter.fits l p = false →
      Limiter.onExec l pid args
        = ({ l with paused := l.paused ++ [⟨pid, (args.head?).getD (strL "<unavailable>"), p⟩] },
           OnExecResult.Paused)) ∧
    (∀ (contOk : Nat → Bool) (l : Limiter),
      (∃ k, (Limiter.tryResumePaused contOk l).paused = l.paused.drop k) ∧
      (∀ e rest, (Limiter.tryResumePaused contOk l).paused = e :: rest →
        Limiter.fits (Limiter.tryResumePaused contOk l) e.profile = false)) := by
  constructor
  · intro l pid args p hp hf
    unfold Limiter.onExec
    rw [hp]
    simp only [hf]
    rfl
  · intro contOk l
    exact drainAux_spec contOk l.paused l

/-- Witness for c4_fifo_amended: a non-fitting cc is enqueued at the tail of
limTight, and draining limStuck stops at its non-fitting head. -/
theorem c4_fifo_amended_witness :
    Limiter.onExec limTight 101 [strL "cc"]
      = ({ limTight with paused := [⟨101, strL "cc", ⟨1, 1⟩⟩] }, OnExecResult.Paused) ∧
    Limiter.fits (Limiter.tryResumePaused (fun _ => true) limStuck)
      (⟨1, 1⟩ : ResourceProfile) = false :=
  ⟨c4_fifo_amended.1 limTight 101 [strL "cc"] ⟨1, 1⟩ (by decide) (by decide),
   (c4_fifo_amended.2 (fun _ => true) limStuck).2 ⟨101, strL "cc", ⟨1, 1⟩⟩ [] (by decide)⟩

/-- C1: budget conservation fails on the code.  From a fresh limiter with
total (1,1), a single on_exec of rustc force-admits with profile (4,4); the
u32 saturating subtraction clamps free at (0,0) instead of (-3,-3), so
free + the sum of active profiles is (4,4), not the total (1,1). -/
theorem c1_conservation_fails :
    (Limiter.onExec (Limiter.new ⟨1, 1⟩) 100 [strL "rustc"]).1.free = (⟨0, 0⟩ : ResourceProfile) ∧
    sumCpus (Limiter.onExec (Limiter.new ⟨1, 1⟩) 100 [strL "rustc"]).1.active = 4 ∧
    sumMem (Limiter.onExec (Limiter.new ⟨1, 1⟩) 100 [strL "rustc"]).1.active = 4 ∧
    (Limiter.onExec (Limiter.new ⟨1, 1⟩) 100 [strL "rustc"]).1.free.cpus
        + sumCpus (Limiter.onExec (Limiter.new ⟨1, 1⟩) 100 [strL "rustc"]).1.active
      ≠ (Limiter.onExec (Limiter.new ⟨1, 1⟩) 100 [strL "rustc"]).1.total.cpus ∧
    (Limiter.onExec (Limiter.new ⟨1, 1⟩) 100 [strL "rustc"]).1.free.mem_gb
        + sumMem (Limiter.onExec (Limiter.new ⟨1, 1⟩) 100 [strL "rustc"]).1.active
      ≠ (Limiter.onExec (Limiter.new ⟨1, 1⟩) 100 [strL "rustc"]).1.total.mem_gb := by
  refine ⟨by decide, by decide, by decide, by decide, by decide⟩

/-- C2: the force-admit scenario evaluated on the code.  From an empty
limiter with total (1,1), on_exec(100, [rustc]) returns Admitted and leaves
exactly one active entry holding (4,4) as the claim states, but free is the
saturated (0,0), not the claimed (-3,-3): the u32 fields cannot go negative. -/
theorem c2_force_grant_eval :
    Limiter.onExec (Limiter.new ⟨1, 1⟩) 100 [strL "rustc"]
      = (⟨⟨1, 1⟩, [(100, ⟨strL "rustc", ⟨4, 4⟩⟩)], [], ⟨0, 0⟩⟩, OnExecResult.Admitted) ∧
    ((Limiter.onExec (Limiter.new ⟨1, 1⟩) 100 [strL "rustc"]).1.free.cpus : Int) ≠ -3 ∧
    ((Limiter.onExec (Limiter.new ⟨1, 1⟩) 100 [strL "rustc"]).1.free.mem_gb : Int) ≠ -3 := by
  refine ⟨by decide, by decide, by decide⟩

/-- C3: ResourceProfile subtraction is not exact signed arithmetic: at
a = (1,1), b = (4,4) the u32 saturating_sub clamps both components to 0,
so (a - b) + b = (4,4) differs from a. -/
theorem c3_sub_not_exact :
    ResourceProfile.sub ⟨1, 1⟩ ⟨4, 4⟩ = (⟨0, 0⟩ : ResourceProfile) ∧
    ResourceProfile.add (ResourceProfile.sub ⟨1, 1⟩ ⟨4, 4⟩) ⟨4, 4⟩ = (⟨4, 4⟩ : ResourceProfile) ∧
    ResourceProfile.add (ResourceProfile.sub ⟨1, 1⟩ ⟨4, 4⟩) ⟨4, 4⟩ ≠ (⟨1, 1⟩ : ResourceProfile) := by
  refine ⟨by decide, by decide, by decide⟩

/-- C5 counterexample: on an exec whose argv is known and classifies as
rate-limited, when the limiter allows the process the supervisor's exec arm
itself issues ptrace::cont on the tracee, contradicting the claim that the
supervisor never does. -/
theorem c5_cx : tracerExecContinues true true true = true := by decide

/-- C5 amended: the supervisor's exec arm issues the continue exactly when
the limiter's verdict is allowed (and unconditionally when argv is
unavailable or the process is not rate-limited); a paused tracee gets no
continue from the supervisor. -/
theorem c5_continue_matches_verdict :
    tracerExecContinues true true true = true ∧
    tracerExecContinues true true false = false ∧
    tracerExecContinues true false true = true ∧
    tracerExecContinues true false false = true ∧
    tracerExecContinues false true true = true ∧
    tracerExecContinues false true false = true ∧
    tracerExecContinues false false true = true ∧
    tracerExecContinues false false false = true := by
  refine ⟨by decide, by decide, by decide, by decide, by decide, by decide, by decide, by decide⟩

/-- C6: the rollback does not leave the state as if the entry had never been
admitted.  In limC6 (total (2,2), pid 100 active with (1,1), free (1,1),
pid 101 queued with (4,4)), on_exit(100) with every ptrace::cont failing
first frees (1,1) giving free (2,2), then force-admits 101 with the
saturating subtraction (free clamps to (0,0), losing the -2 oversubscription)
and rolls back by adding (4,4), leaving free (4,4) instead of the (2,2) the
claim requires. -/
theorem c6_rollback_inflates_free :
    (Limiter.onExit (fun _ => false) limC6 100).free = (⟨4, 4⟩ : ResourceProfile) ∧
    (Limiter.onExit (fun _ => false) limC6 100).active = [] ∧
    (Limiter.onExit (fun _ => false) limC6 100).paused = [] ∧
    (Limiter.onExit (fun _ => false) limC6 100).free ≠ (⟨2, 2⟩ : ResourceProfile) := by
  refine ⟨by decide, by decide, by decide, by decide⟩

theorem assocLookup_ne_nil {m : List (Nat × ActiveEntry)} {k : Nat} {v : ActiveEntry}
    (h : assocLookup m k = some v) : m ≠ [] := by
  intro he
  subst he
  simp [assocLookup, List.find?] at h

theorem fits_hasFree {l : Limiter} {p : ResourceProfile}
    (hf : Limiter.fits l p = true) (hne : l.active ≠ []) :
    p.cpus ≤ l.free.cpus ∧ p.mem_gb ≤ l.free.mem_gb := by
  unfold Limiter.fits at hf
  by_cases hh : p.hasFreeResources l.free = true
  · unfold ResourceProfile.hasFreeResources at hh
    simp only [Bool.and_eq_true, decide_eq_true_eq] at hh
    exact hh
  · rw [if_neg hh] at hf
    have hie : l.active.isEmpty = false := by
      cases hl : l.active with
      | nil => exact absurd hl hne
      | cons a t => rfl
    rw [hie] at hf
    simp at hf

theorem sumCpus_append (a b : List (Nat × ActiveEntry)) :
    sumCpus (a ++ b) = sumCpus a + sumCpus b := by
  simp [sumCpus, List.map_append, List.sum_append]

theorem sumMem_append (a b : List (Nat × ActiveEntry)) :
    sumMem (a ++ b) = sumMem a + sumMem b := by
  simp [sumMem, List.map_append, List.sum_append]

theorem sum_erase_of_lookup :
    ∀ (m : List (Nat × ActiveEntry)) (k : Nat) (v : ActiveEntry),
      keysNodup m → assocLookup m k = some v →
      sumCpus m = sumCpus (assocErase m k) + v.profile.cpus ∧
      sumMem m = sumMem (assocErase m k) + v.profile.mem_gb := by
  intro m
  induction m with
  | nil =>
    intro k v _ h
    simp [assocLookup, List.find?] at h
  | cons x t ih =>
    intro k v hnd h
    have hnd' : keysNodup t := by
      simp only [keysNodup, List.map_cons, List.nodup_cons] at hnd
      exact hnd.2
    have hnotin : x.1 ∉ t.map (fun e => e.1) := by
      simp only [keysNodup, List.map_cons, List.nodup_cons] at hnd
      exact hnd.1
    by_cases hk : x.1 = k
    · have hfind : assocLookup (x :: t) k = some x.2 := by
        simp [assocLookup, List.find?, hk]
      rw [hfind] at h
      have hv : v = x.2 := (Option.some.injEq _ _ ▸ h).symm
      subst hv
      have herase : assocErase (x :: t) k = t := by
        unfold assocErase
        rw [List.filter_cons]
        have : (x.1 != k) = false := by simp [hk]
        rw [this]
        simp only [Bool.false_eq_true, if_false]
        rw [List.filter_eq_self]
        intro a ha
        have : a.1 ≠ k := by
          intro he
          exact hnotin (hk ▸ he ▸ List.mem_map_of_mem (fun e => e.1) ha)
        simp [this]
      rw [herase]
      constructor
      · simp [sumCpus, Nat.add_comm]
      · simp [sumMem, Nat.add_comm]
    · have hb : (x.1 == k) = false := by simp [hk]
      have hfind : assocLookup (x :: t) k = assocLookup t k := by
        simp [assocLookup, List.find?, hb]
      rw [hfind] at h
      have herase : assocErase (x :: t) k = x :: assocErase t k := by
        unfold assocErase
        rw [List.filter_cons]
        have : (x.1 != k) = true := by simp [hk]
        rw [this]
        simp
      obtain ⟨h1, h2⟩ := ih k v hnd' h
      rw [herase]
      constructor
      · simp only [sumCpus, List.map_cons, List.sum_cons] at h1 ⊢
        omega
      · simp only [sumMem, List.map_cons, List.sum_cons] at h2 ⊢
        omega

theorem sum_insert (m : List (Nat × ActiveEntry)) (k : Nat) (v : ActiveEntry) :
    sumCpus (assocInsert m k v) = sumCpus (assocErase m k) + v.profile.cpus ∧
    sumMem (assocInsert m k v) = sumMem (assocErase m k) + v.profile.mem_gb := by
  unfold assocInsert
  rw [sumCpus_append, sumMem_append]
  constructor
  · simp [sumCpus]
  · simp [sumMem]

theorem lookup_insert_self (m : List (Nat × ActiveEntry)) (k : Nat) (v : ActiveEntry) :
    assocLookup (assocInsert m k v) k = some v := by
  unfold assocInsert assocLookup
  have haux : ∀ l : List (Nat × ActiveEntry),
      (∀ x ∈ l, (x.1 == k) = false) →
      List.find? (fun e => e.1 == k) (l ++ [(k, v)]) = some (k, v) := by
    intro l
    induction l with
    | nil => intro _; simp [List.find?]
    | cons x t ih =>
      intro h
      rw [List.cons_append, List.find?]
      rw [h x (by simp)]
      exact ih (fun y hy => h y (by simp [hy]))
  rw [haux (assocErase m k) ?_]
  · rfl
  · intro x hx
    have := List.of_mem_filter hx
    simp only [bne_iff_ne, ne_eq, decide_eq_true_eq] at this
    simp [this]

/-- C10: a second on_exec for a pid already active, whose argv classifies to
a fitting profile, is admitted again: free is decremented by the new profile,
the map insertion replaces the old entry, and the profile the pid previously
held is never returned to free, so the conservation equation (in exact
signed arithmetic) drops by exactly the old profile and no longer holds. -/
theorem c10_duplicate_exec_drops_profile :
    ∀ (l : Limiter) (pid : Nat) (args : List (List Char)) (old : ActiveEntry)
      (p : ResourceProfile),
      keysNodup l.active →
      assocLookup l.active pid = some old →
      profile_for_total args l.total = some p →
      Limiter.fits l p = true →
      ((Limiter.onExec l pid args).2 = OnExecResult.Admitted ∧
       (Limiter.onExec l pid args).1.total = l.total ∧
       (Limiter.onExec l pid args).1.free = ResourceProfile.sub l.free p ∧
       assocLookup (Limiter.onExec l pid args).1.active pid
         = some ⟨(args.head?).getD (strL "<unavailable>"), p⟩ ∧
       (((Limiter.onExec l pid args).1.free.cpus : Int)
          + sumCpus (Limiter.onExec l pid args).1.active
         = (l.free.cpus : Int) + sumCpus l.active - old.profile.cpus) ∧
       (((Limiter.onExec l pid args).1.free.mem_gb : Int)
          + sumMem (Limiter.onExec l pid args).1.active
         = (l.free.mem_gb : Int) + sumMem l.active - old.profile.mem_gb) ∧
       (((l.free.cpus : Int) + sumCpus l.active = l.total.cpus ∧
         (l.free.mem_gb : Int) + sumMem l.active = l.total.mem_gb ∧
         (old.profile.cpus ≠ 0 ∨ old.profile.mem_gb ≠ 0)) →
        ¬(((Limiter.onExec l pid args).1.free.cpus : Int)
            + sumCpus (Limiter.onExec l pid args).1.active = l.total.cpus ∧
          ((Limiter.onExec l pid args).1.free.mem_gb : Int)
            + sumMem (Limiter.onExec l pid args).1.active = l.total.mem_gb))) := by
  intro l pid args old p hnd hl hp hf
  have hrun : Limiter.onExec l pid args
      = (Limiter.grant l pid ((args.head?).getD (strL "<unavailable>")) p,
         OnExecResult.Admitted) := by
    unfold Limiter.onExec
    rw [hp]
    simp only [hf, if_true]
  rw [hrun]
  have hle := fits_hasFree hf (assocLookup_ne_nil hl)
  have hins := sum_insert l.active pid ⟨(args.head?).getD (strL "<unavailable>"), p⟩
  have hers := sum_erase_of_lookup l.active pid old hnd hl
  have hgc : sumCpus (Limiter.grant l pid ((args.head?).getD (strL "<unavailable>")) p).active
      = sumCpus (assocErase l.active pid) + p.cpus := hins.1
  have hgm : sumMem (Limiter.grant l pid ((args.head?).getD (strL "<unavailable>")) p).active
      = sumMem (assocErase l.active pid) + p.mem_gb := hins.2
  have hfc : (Limiter.grant l pid ((args.head?).getD (strL "<unavailable>")) p).free.cpus
      = l.free.cpus - p.cpus := rfl
  have hfm : (Limiter.grant l pid ((args.head?).getD (strL "<unavailable>")) p).free.mem_gb
      = l.free.mem_gb - p.mem_gb := rfl
  refine ⟨rfl, rfl, rfl, lookup_insert_self l.active pid _, ?_, ?_, ?_⟩
  · rw [hgc, hfc]
    have h1 := hers.1
    have h2 := hle.1
    omega
  · rw [hgm, hfm]
    have h1 := hers.2
    have h2 := hle.2
    omega
  · intro hpre hq
    obtain ⟨hq1, hq2⟩ := hq
    rw [hgc, hfc] at hq1
    rw [hgm, hfm] at hq2
    have h1 := hers.1
    have h2 := hers.2
    have h3 := hle.1
    have h4 := hle.2
    obtain ⟨he1, he2, hoz⟩ := hpre
    omega

/-- Witness for c10_duplicate_exec_drops_profile: the duplicate cc exec of
pid 100 on limC10 (total (4,4), pid 100 already holding (1,1), free (3,3)). -/
theorem c10_duplicate_exec_drops_profile_witness :
    ((Limiter.onExec limC10 100 [strL "cc"]).2 = OnExecResult.Admitted ∧
     (Limiter.onExec limC10 100 [strL "cc"]).1.total = limC10.total ∧
     (Limiter.onExec limC10 100 [strL "cc"]).1.free
       = ResourceProfile.sub limC10.free ⟨1, 1⟩ ∧
     assocLookup (Limiter.onExec limC10 100 [strL "cc"]).1.active 100
       = some ⟨(([strL "cc"] : List (List Char)).head?).getD (strL "<unavailable>"), ⟨1, 1⟩⟩ ∧
     (((Limiter.onExec limC10 100 [strL "cc"]).1.free.cpus : Int)
        + sumCpus (Limiter.onExec limC10 100 [strL "cc"]).1.active
       = (limC10.free.cpus : Int) + sumCpus limC10.active
           - (⟨strL "cc", ⟨1, 1⟩⟩ : ActiveEntry).profile.cpus) ∧
     (((Limiter.onExec limC10 100 [strL "cc"]).1.free.mem_gb : Int)
        + sumMem (Limiter.onExec limC10 100 [strL "cc"]).1.active
       = (limC10.free.mem_gb : Int) + sumMem limC10.active
           - (⟨strL "cc", ⟨1, 1⟩⟩ : ActiveEntry).profile.mem_gb) ∧
     (((limC10.free.cpus : Int) + sumCpus limC10.active = limC10.total.cpus ∧
       (limC10.free.mem_gb : Int) + sumMem limC10.active = limC10.total.mem_gb ∧
       ((⟨strL "cc", ⟨1, 1⟩⟩ : ActiveEntry).profile.cpus ≠ 0 ∨
        (⟨strL "cc", ⟨1, 1⟩⟩ : ActiveEntry).profile.mem_gb ≠ 0)) →
      ¬(((Limiter.onExec limC10 100 [strL "cc"]).1.free.cpus : Int)
          + sumCpus (Limiter.onExec limC10 100 [strL "cc"]).1.active = limC10.total.cpus ∧
        ((Limiter.onExec limC10 100 [strL "cc"]).1.free.mem_gb : Int)
          + sumMem (Limiter.onExec limC10 100 [strL "cc"]).1.active = limC10.total.mem_gb))) :=
  c10_duplicate_exec_drops_profile limC10 100 [strL "cc"] ⟨strL "cc", ⟨1, 1⟩⟩ ⟨1, 1⟩
    (by unfold keysNodup; decide) (by decide) (by decide) (by decide)
